import Mathlib

/-!
Verification of the Orderly file-organizer core against its specification.

The TypeScript source is shallowly embedded:

* JavaScript strings are modelled as `List Char` (wrapped in `String` at the
  API boundary).  `String.toLowerCase`/`toUpperCase` are modelled on the
  ASCII range (the repository only case-maps ASCII letters in filenames;
  Unicode case mapping is outside the model).
* Node's `path` module (posix flavour) is embedded executably:
  `extname`, `basename`-derived stem, `dirname`, `join`, `normalize`.
* Regex-based transformations in `NamingUtils` are embedded as structural
  recursions that realize exactly the global-replace semantics of the
  source regexes (arguments for the equivalence are given at each
  definition).
* The filesystem is a `World` state: a set of existing entry paths plus a
  trace of mutating calls and a log, so that executor claims about
  isolation, dry-run purity and overwrite protection are statable.
-/

namespace Orderly

/-! ## ASCII character primitives (model of JS `toLowerCase`/`toUpperCase`) -/

/-- ASCII uppercase letter test, `A`–`Z`. -/
def upperA (c : Char) : Bool := 65 ≤ c.toNat && c.toNat ≤ 90

/-- ASCII lowercase letter test, `a`–`z`. -/
def lowerA (c : Char) : Bool := 97 ≤ c.toNat && c.toNat ≤ 122

/-- ASCII digit test, `0`–`9`. -/
def digitA (c : Char) : Bool := 48 ≤ c.toNat && c.toNat ≤ 57

/-- Model of JS `String.prototype.toLowerCase` on one character
(ASCII range only). -/
def lowChar (c : Char) : Char :=
  if upperA c then Char.ofNat (c.toNat + 32) else c

/-- Model of JS `String.prototype.toUpperCase` on one character
(ASCII range only). -/
def upChar (c : Char) : Char :=
  if lowerA c then Char.ofNat (c.toNat - 32) else c

/-- Model of JS `s.toLowerCase()` over a character list. -/
def lowStr (l : List Char) : List Char := l.map lowChar

/-- Characters matched by the JS regex class `\s` (ASCII part: space, tab,
newline, vertical tab, form feed, carriage return — code points 32, 9, 10,
11, 12, 13). -/
def spaceA (c : Char) : Bool :=
  c.toNat = 32 || c.toNat = 9 || c.toNat = 10 || c.toNat = 11 ||
    c.toNat = 12 || c.toNat = 13

/-! Basic facts about the character primitives. -/

theorem toNat_ofNat_small {n : Nat} (h : n < 55296) : (Char.ofNat n).toNat = n := by
  have hv : n.isValidChar := Or.inl h
  have h2 : n < 4294967296 := by omega
  simp [Char.ofNat, hv, Char.ofNatAux, Char.toNat, Nat.toUInt32, UInt32.toNat,
    UInt32.ofNat', Nat.mod_eq_of_lt h2]

theorem upperA_iff {c : Char} : upperA c = true ↔ 65 ≤ c.toNat ∧ c.toNat ≤ 90 := by
  simp [upperA]

theorem lowChar_of_not_upper {c : Char} (h : ¬ upperA c = true) : lowChar c = c := by
  simp [lowChar, h]

theorem toNat_lowChar_of_upper {c : Char} (h : upperA c = true) :
    (lowChar c).toNat = c.toNat + 32 := by
  rcases upperA_iff.mp h with ⟨_, h2⟩
  simp only [lowChar, h, if_pos]
  exact toNat_ofNat_small (by omega)

theorem lowerA_lowChar_of_upper {c : Char} (h : upperA c = true) :
    lowerA (lowChar c) = true := by
  rcases upperA_iff.mp h with ⟨h1, h2⟩
  simp [lowerA, toNat_lowChar_of_upper h]
  omega

theorem not_upperA_lowChar (c : Char) : upperA (lowChar c) = false := by
  by_cases h : upperA c = true
  · have := toNat_lowChar_of_upper h
    rcases upperA_iff.mp h with ⟨h1, h2⟩
    simp [upperA, this]
    omega
  · rw [lowChar_of_not_upper h]
    exact Bool.not_eq_true _ ▸ (by simpa using h)

theorem lowChar_lowChar (c : Char) : lowChar (lowChar c) = lowChar c :=
  lowChar_of_not_upper (by simp [not_upperA_lowChar])

theorem lowStr_lowStr (l : List Char) : lowStr (lowStr l) = lowStr l := by
  simp only [lowStr, List.map_map]
  exact List.map_congr_left fun c _ => lowChar_lowChar c

/-! ## Regex passes used by `NamingUtils` (src/src/utils/naming.ts)

Each JS regex replace is embedded as a structural recursion; a comment at
each definition argues that the recursion realizes the global-replace
semantics of the regex. -/

/-- One step of `replace(/([a-z])([A-Z])/g, (dollar)1-(dollar)2)` (with a
configurable separator, `-` for kebab-case and `_` for snake_case): walk the
string and put `sep` between a lowercase letter and an uppercase letter that
immediately follows it.  After the regex matches a pair, scanning resumes
after the pair; since the second character of a match is uppercase it can
never begin another match, so the overlapping walk below produces the same
output as the resume-after-match semantics. -/
def boundaryGo (sep : Char) (c : Char) : List Char → List Char
  | [] => [c]
  | d :: rest =>
    if lowerA c && upperA d then c :: sep :: boundaryGo sep d rest
    else c :: boundaryGo sep d rest

/-- Model of `str.replace(/([a-z])([A-Z])/g, ...)` with separator `sep`. -/
def boundaryIns (sep : Char) : List Char → List Char
  | [] => []
  | c :: rest => boundaryGo sep c rest

/-- Model of `replace(/[X]+/g, sep)` for a character class `p`: every maximal
run of characters satisfying `p` is replaced by the single character `sep`.
The boolean state records whether we are inside a run (in which case the
separator has already been emitted for this run). -/
def collapseAux (p : Char → Bool) (sep : Char) : Bool → List Char → List Char
  | _, [] => []
  | inRun, c :: rest =>
    if p c then
      if inRun then collapseAux p sep true rest
      else sep :: collapseAux p sep true rest
    else c :: collapseAux p sep false rest

/-- Model of a maximal-run replace starting outside a run. -/
def collapseRuns (p : Char → Bool) (sep : Char) (l : List Char) : List Char :=
  collapseAux p sep false l

/-- Characters collapsed by kebab-case, regex class `[\s_]` (underscore is
code point 95). -/
def kebabSep (c : Char) : Bool := spaceA c || c.toNat = 95

/-- Characters collapsed by snake_case, regex class `[\s-]` (dash is code
point 45). -/
def snakeSep (c : Char) : Bool := spaceA c || c.toNat = 45

/-- Characters kept by the kebab-case strip `replace(/[^a-zA-Z0-9-]/g, )`. -/
def kebabKeep (c : Char) : Bool := lowerA c || upperA c || digitA c || c.toNat = 45

/-- Characters kept by the snake_case strip `replace(/\W/g, )`
(`\W` is `[^A-Za-z0-9_]`). -/
def snakeKeep (c : Char) : Bool := lowerA c || upperA c || digitA c || c.toNat = 95

/-- Characters matched by the camelCase separator class `[-_\s]`. -/
def camelSep (c : Char) : Bool := c.toNat = 45 || c.toNat = 95 || spaceA c

/-- Model of `replace(/[-_\s]+(.)?/g, (_, char) => char ? char.toUpperCase()
: )`: every maximal run of separators is deleted and the character following
the run (if any) is uppercased.  The optional group `(.)?` always captures
the character after a maximal run because the `+` is greedy, and that
character cannot be a newline (a newline is itself in `[\s]`), so `.`
matching it is not a concern.  The boolean state records whether a
separator run is pending. -/
def camelAux : Bool → List Char → List Char
  | _, [] => []
  | pending, c :: rest =>
    if camelSep c then camelAux true rest
    else if pending then upChar c :: camelAux false rest
    else c :: camelAux false rest

/-- Model of `replace(/^./, char => char.toUpperCase())`: uppercase the first
character if the string is nonempty; `.` does not match a newline, so a
leading newline is left alone. -/
def ucFirst : List Char → List Char
  | [] => []
  | c :: rest => if c = '\n' then c :: rest else upChar c :: rest

/-! ## Node `path.extname` / stem extraction (posix), for basenames

`applyNamingConvention` calls `path.extname(filename)` and
`path.basename(filename, ext)`.  Following the data model, filenames are
basenames; the embedding handles slash-free names (theorems carry a
no-slash hypothesis where it matters). -/

/-- Test for a character other than the dot. -/
def notDot (c : Char) : Bool := !(c = '.')

/-- Model of Node posix `path.extname` on a slash-free name: the suffix of
`s` starting at its last dot, except that the result is empty when there is
no dot, when the last dot is the first character, or when the whole name is
`..` (these are exactly the cases in which Node returns the empty string). -/
def extnameCore (s : List Char) : List Char :=
  let after := (s.reverse.takeWhile notDot).reverse
  if after.length = s.length then []
  else if s.length - after.length - 1 = 0 ∨ s = ['.', '.'] then []
  else '.' :: after

/-- Stem of a slash-free name: the name with its `extnameCore` suffix
removed; this equals Node's `path.basename(s, path.extname(s))` because
`extnameCore s` is always a proper (possibly empty) suffix of `s`. -/
def stemCore (s : List Char) : List Char :=
  s.take (s.length - (extnameCore s).length)

/-! ## `NamingUtils` (src/src/utils/naming.ts) -/

/-- Runtime value of `NamingConvention.type`.  The TypeScript union names
four values, but the `switch` in `applyNamingConvention` has a `default`
arm, so the runtime model keeps a constructor for any other string. -/
inductive NamingType where
  | kebab
  | snake
  | camel
  | pascal
  | other (s : String)
deriving DecidableEq, Repr

/-- Model of the `NamingConvention` object.  The optional `lowercase`
boolean is modelled as `Bool` (`undefined` and `false` behave identically in
the source, which only tests truthiness). -/
structure NamingConvention where
  type : NamingType
  lowercase : Bool
deriving DecidableEq, Repr

namespace NamingUtils

/-- `NamingUtils.toKebabCase`, at the character-list level. -/
def kebabChars (l : List Char) : List Char :=
  lowStr ((collapseRuns kebabSep '-' (boundaryIns '-' l)).filter kebabKeep)

/-- `NamingUtils.toSnakeCase`, at the character-list level. -/
def snakeChars (l : List Char) : List Char :=
  lowStr ((collapseRuns snakeSep '_' (boundaryIns '_' l)).filter snakeKeep)

/-- `NamingUtils.toCamelCase`, at the character-list level. -/
def camelChars (l : List Char) : List Char :=
  camelAux false (lowStr l)

/-- `NamingUtils.toPascalCase`, at the character-list level. -/
def pascalChars (l : List Char) : List Char :=
  ucFirst (camelAux false (lowStr l))

/-- `NamingUtils.toKebabCase`. -/
def toKebabCase (s : String) : String := ⟨kebabChars s.data⟩

/-- `NamingUtils.toSnakeCase`. -/
def toSnakeCase (s : String) : String := ⟨snakeChars s.data⟩

/-- `NamingUtils.toCamelCase`. -/
def toCamelCase (s : String) : String := ⟨camelChars s.data⟩

/-- `NamingUtils.toPascalCase`. -/
def toPascalCase (s : String) : String := ⟨pascalChars s.data⟩

/-- Stem transformation selected by the `switch (convention.type)`, followed
by the `convention.lowercase` re-lowering (which is skipped for camelCase
and PascalCase), at the character-list level. -/
def transformStem (conv : NamingConvention) (stem : List Char) : List Char :=
  let converted :=
    match conv.type with
    | NamingType.kebab => kebabChars stem
    | NamingType.snake => snakeChars stem
    | NamingType.camel => camelChars stem
    | NamingType.pascal => pascalChars stem
    | NamingType.other _ => stem
  if conv.lowercase ∧ conv.type ≠ NamingType.camel ∧ conv.type ≠ NamingType.pascal then
    lowStr converted
  else converted

/-- `NamingUtils.applyNamingConvention`: split the filename into stem and
extension, transform the stem, reattach the lowercased extension. -/
def applyNamingConvention (filename : String) (conv : NamingConvention) : String :=
  ⟨transformStem conv (stemCore filename.data) ++ lowStr (extnameCore filename.data)⟩

/-- `NamingUtils.needsRename`. -/
def needsRename (filename : String) (conv : NamingConvention) : Bool :=
  filename ≠ applyNamingConvention filename conv

end NamingUtils

/-! Sanity checks against the spec's scenarios (section 8). -/

example : NamingUtils.applyNamingConvention "Test File.TXT"
    ⟨NamingType.kebab, true⟩ = "test-file.txt" := by decide

example : NamingUtils.applyNamingConvention "my_file_name"
    ⟨NamingType.pascal, false⟩ = "MyFileName" := by decide

/-! ## Node `path` module (posix): `dirname`, `normalize`, `join`

These are used by the planner (`path.dirname`, `path.join`,
`path.normalize`) and the executor (`path.dirname`).  They are embedded
executably following Node's posix implementations. -/

/-- Split a character list on `/`, keeping empty segments (the inverse of
joining with `/`). -/
def splitSlash : List Char → List (List Char)
  | [] => [[]]
  | c :: rest =>
    if c = '/' then [] :: splitSlash rest
    else match splitSlash rest with
      | [] => [[c]]
      | seg :: segs => (c :: seg) :: segs

/-- Join segments with a single `/` between them. -/
def joinSegs : List (List Char) → List Char
  | [] => []
  | [seg] => seg
  | seg :: segs => seg ++ '/' :: joinSegs segs

/-- One step of Node's `normalizeString` segment resolution: skip empty and
`.` segments; `..` pops a previous real segment, stacks on top of a stacked
`..`, and below the root is kept only when `allowAboveRoot` (relative
paths).  The stack is kept top-first. -/
def normStep (allowAboveRoot : Bool) (acc : List (List Char)) (seg : List Char) :
    List (List Char) :=
  if seg = [] ∨ seg = ['.'] then acc
  else if seg = ['.', '.'] then
    match acc with
    | [] => if allowAboveRoot then [['.', '.']] else []
    | t :: rest => if t = ['.', '.'] then seg :: acc else rest
  else seg :: acc

/-- Model of Node posix `normalizeString`. -/
def normSegs (allowAboveRoot : Bool) (segs : List (List Char)) : List (List Char) :=
  (segs.foldl (normStep allowAboveRoot) []).reverse

/-- Model of Node posix `path.normalize` at the character-list level. -/
def normalizeChars (p : List Char) : List Char :=
  if p = [] then ['.']
  else
    let isAbs := p.head? = some '/'
    let trailing := p.getLast? = some '/'
    let body := joinSegs (normSegs (!isAbs) (splitSlash p))
    if body = [] then
      if isAbs then ['/'] else if trailing then ['.', '/'] else ['.']
    else
      (if isAbs then '/' :: body else body) ++ (if trailing then ['/'] else [])

/-- Model of Node posix `path.join` at the character-list level: drop empty
arguments, join the rest with `/`, normalize; `.` when everything is
empty. -/
def joinChars (parts : List (List Char)) : List Char :=
  let nonempty := parts.filter (· ≠ [])
  if nonempty = [] then ['.'] else normalizeChars (joinSegs nonempty)

/-- Model of Node posix `path.dirname` at the character-list level: the
prefix of `p` up to the last `/` that precedes the final non-slash run,
never considering a `/` at position 0; `/` for root-only absolute paths,
`.` when there is no directory part, `//` for the double-root special
case. -/
def dirnameChars (p : List Char) : List Char :=
  if p = [] then ['.']
  else
    let hasRoot := p.head? = some '/'
    let rev1 := p.reverse.dropWhile (· = '/')
    let rev2 := rev1.dropWhile (· ≠ '/')
    let idx := rev2.length - 1
    if rev2 = [] ∨ idx = 0 then
      if hasRoot then ['/'] else ['.']
    else if hasRoot ∧ idx = 1 then ['/', '/']
    else p.take idx

namespace NodePath

/-- Node posix `path.normalize`. -/
def normalize (p : String) : String := ⟨normalizeChars p.data⟩

/-- Node posix `path.join` restricted to two arguments (the only arity the
planner and executor use). -/
def join (a b : String) : String := ⟨joinChars [a.data, b.data]⟩

/-- Node posix `path.dirname`. -/
def dirname (p : String) : String := ⟨dirnameChars p.data⟩

/-- Node posix `path.extname` restricted to slash-free names. -/
def extname (p : String) : String := ⟨extnameCore p.data⟩

end NodePath

/-! Sanity checks for the path embedding against Node's behavior. -/

example : NodePath.normalize "/base/docs/../img//x.txt" = "/base/img/x.txt" := by decide
example : NodePath.normalize "a/./b/" = "a/b/" := by decide
example : NodePath.normalize "" = "." := by decide
example : NodePath.join "/base/docs" "my-file.txt" = "/base/docs/my-file.txt" := by decide
example : NodePath.join "" "" = "." := by decide
example : NodePath.dirname "/base/docs/My File.txt" = "/base/docs" := by decide
example : NodePath.dirname "/a//" = "/" := by decide
example : NodePath.dirname "abc" = "." := by decide
example : NodePath.dirname "//a" = "//" := by decide

/-! ## Data model (src/src/config/types.ts, scanner, organizer)

Record shapes follow the TypeScript interfaces; optional fields become
`Option`.  The `FileOperation` / `OrganizationResult` shapes are the ones
constructed by the planner and executor and described in the data model
section of the spec. -/

/-- `CategoryRule` from src/src/config/types.ts. -/
structure CategoryRule where
  name : String
  extensions : List String
  patterns : Option (List String)
  targetFolder : Option String
deriving DecidableEq, Repr

/-- `OrderlyConfig` from src/src/config/types.ts (log fields omitted; the
core never reads them). -/
structure OrderlyConfig where
  categories : List CategoryRule
  namingConvention : NamingConvention
  excludePatterns : List String
  includeHidden : Bool
  dryRun : Bool
  generateManifest : Bool
  targetDirectory : Option String
deriving DecidableEq, Repr

/-- `ScannedFile` from src/src/scanner/file-scanner.ts. -/
structure ScannedFile where
  originalPath : String
  filename : String
  extension : String
  size : Nat
  category : Option String
  targetFolder : Option String
  scanNeedsRename : Bool
  suggestedName : Option String
deriving DecidableEq, Repr

/-- `FileOperationType` enum: `move`, `rename`, `move-rename`. -/
inductive FileOperationType where
  | move
  | rename
  | moveRename
deriving DecidableEq, Repr

/-- `FileOperation` as constructed by the planner. -/
structure FileOperation where
  type : FileOperationType
  originalPath : String
  newPath : String
  reason : String
deriving DecidableEq, Repr

/-- One element of `OrganizationResult.errors`. -/
structure OrgError where
  file : String
  error : String
deriving DecidableEq, Repr

/-- `OrganizationResult` as built by the executor. -/
structure OrganizationResult where
  operations : List FileOperation
  successful : Nat
  failed : Nat
  errors : List OrgError
deriving DecidableEq, Repr

/-- JS truthiness of an optional string (`undefined` and the empty string
are falsy). -/
def strTruthy : Option String → Bool
  | none => false
  | some s => !(s = "")

/-! ## `FileCategorizer` (src/unnamed/part_009) and
`FileScanner.categorizeFile` (src/src/scanner/file-scanner.ts)

The glob matcher `micromatch.isMatch` is an external library; the
categorizer is parameterized by it. -/

namespace FileCategorizer

/-- `FileCategorizer.matchesCategory`: extension must be a member of the
rule's extension list (exact string comparison, `Array.includes`); then, if
the rule declares `patterns`, the filename must match them. -/
def matchesCategory (isMatch : String → List String → Bool)
    (extension filename : String) (category : CategoryRule) : Bool :=
  if extension ∈ category.extensions then
    match category.patterns with
    | some ps => isMatch filename ps
    | none => true
  else false

/-- `FileCategorizer.categorize`: first rule that matches, or none. -/
def categorize (isMatch : String → List String → Bool)
    (extension filename : String) (categories : List CategoryRule) :
    Option CategoryRule :=
  categories.find? (matchesCategory isMatch extension filename)

end FileCategorizer

/-- `FileScanner.categorizeFile`: the same loop inlined in the scanner — on
an extension hit with failing patterns it also falls through to the next
rule, so it agrees with `FileCategorizer.categorize`. -/
def FileScanner.categorizeFile (isMatch : String → List String → Bool)
    (extension filename : String) (categories : List CategoryRule) :
    Option CategoryRule :=
  categories.find? (FileCategorizer.matchesCategory isMatch extension filename)

/-! ## `OperationPlanner` (src/unnamed/part_012 and part_013; the two
revisions have identical logic) -/

namespace OperationPlanner

/-- `calculateTargets`: target directory is the category folder under
`config.targetDirectory` (or the base directory) when `file.targetFolder`
is truthy, else the file's current directory; target filename is the
converted name when `NamingUtils.needsRename` holds, else unchanged. -/
def calculateTargets (config : OrderlyConfig) (baseDirectory : String)
    (file : ScannedFile) : String × String :=
  let originalDir := NodePath.dirname file.originalPath
  let targetDir :=
    if strTruthy file.targetFolder then
      match config.targetDirectory, file.targetFolder with
      | some td, some tf => NodePath.join td tf
      | none, some tf => NodePath.join baseDirectory tf
      | _, none => originalDir
    else originalDir
  let targetFilename :=
    if NamingUtils.needsRename file.filename config.namingConvention then
      NamingUtils.applyNamingConvention file.filename config.namingConvention
    else file.filename
  (targetDir, targetFilename)

/-- `createOperation`: classification keys on `file.targetFolder !==
undefined` (note: presence, not truthiness, and not an actual directory
comparison) and on whether the filename changed. -/
def createOperation (file : ScannedFile) (targetFilename newPath : String) :
    FileOperation :=
  let needsMove := file.targetFolder.isSome
  let needsRen := file.filename ≠ targetFilename
  if needsMove ∧ needsRen then
    { type := FileOperationType.moveRename
      originalPath := file.originalPath
      newPath := newPath
      reason := "Moving to " ++ (file.targetFolder.getD "") ++
        " and renaming to " ++ targetFilename }
  else if needsMove then
    { type := FileOperationType.move
      originalPath := file.originalPath
      newPath := newPath
      reason := "Moving to " ++ (file.targetFolder.getD "") }
  else
    { type := FileOperationType.rename
      originalPath := file.originalPath
      newPath := newPath
      reason := "Renaming to " ++ targetFilename }

/-- `planFileOperation`: no operation when the normalized destination
equals the normalized source. -/
def planFileOperation (config : OrderlyConfig) (baseDirectory : String)
    (file : ScannedFile) : Option FileOperation :=
  let targets := calculateTargets config baseDirectory file
  let newPath := NodePath.join targets.1 targets.2
  if NodePath.normalize newPath = NodePath.normalize file.originalPath then
    none
  else
    some (createOperation file targets.2 newPath)

/-- `plan`: collect the non-`null` per-file operations in order. -/
def plan (config : OrderlyConfig) (baseDirectory : String)
    (files : List ScannedFile) : List FileOperation :=
  files.filterMap (planFileOperation config baseDirectory)

end OperationPlanner

/-! ## Filesystem model and `OperationExecutor` (src/unnamed/part_011)

The filesystem is a set of existing entry paths plus a trace of the
mutating `fs` calls that actually ran (a `mkdirSync` that found the
directory already present mutates nothing and records nothing, matching
`FileSystemUtils.mkdirSync`'s check-then-create) and the logger's
append-only output.  `renameSync` fails when the source entry does not
exist (ENOENT) and otherwise moves the entry; exceptions do not roll back
earlier mutations, so failing calls return the world they produced so
far. -/

/-- One recorded filesystem mutation. -/
inductive FsCall where
  | mkdirCall (dir : String)
  | renameCall (src dst : String)
deriving DecidableEq, Repr

/-- Filesystem-plus-logger state threaded through the executor. -/
structure World where
  entries : List String
  fsCalls : List FsCall
  log : List String
deriving DecidableEq, Repr

namespace FileSystemUtils

/-- `FileSystemUtils.existsSync`. -/
def existsSync (p : String) (w : World) : Bool := p ∈ w.entries

/-- `FileSystemUtils.mkdirSync`: create the directory (entry) unless it
already exists. -/
def mkdirSync (dir : String) (w : World) : World :=
  if existsSync dir w then w
  else { w with entries := dir :: w.entries,
                fsCalls := w.fsCalls ++ [FsCall.mkdirCall dir] }

/-- `FileSystemUtils.renameSync`: move the entry at `src` to `dst`
(overwriting an entry already at `dst`, as POSIX rename does); throw ENOENT
when `src` does not exist.  The first component is the thrown error message,
if any. -/
def renameSync (src dst : String) (w : World) : Option String × World :=
  if src ∈ w.entries then
    (none, { w with
      entries := dst :: (w.entries.erase src).erase dst,
      fsCalls := w.fsCalls ++ [FsCall.renameCall src dst] })
  else
    (some ("ENOENT: no such file or directory, rename '" ++ src ++ "' -> '" ++
      dst ++ "'"), w)

end FileSystemUtils

/-- Append one line to the logger output. -/
def logLine (msg : String) (w : World) : World :=
  { w with log := w.log ++ [msg] }

namespace OperationExecutor

/-- `createEmptyResult`. -/
def createEmptyResult (operations : List FileOperation) : OrganizationResult :=
  { operations := operations, successful := 0, failed := 0, errors := [] }

/-- Render a `FileOperationType` the way the enum's string value prints. -/
def typeString : FileOperationType → String
  | FileOperationType.move => "move"
  | FileOperationType.rename => "rename"
  | FileOperationType.moveRename => "move-rename"

/-- `performOperation`: ensure the destination's parent directory exists,
fail (without renaming) when an entry already occupies a destination that
differs from the source, otherwise rename.  The thrown message, if any, is
the first component; the world reflects every mutation made before the
throw. -/
def performOperation (op : FileOperation) (w : World) : Option String × World :=
  let targetDir := NodePath.dirname op.newPath
  let w1 := FileSystemUtils.mkdirSync targetDir w
  if FileSystemUtils.existsSync op.newPath w1 ∧ op.newPath ≠ op.originalPath then
    (some ("Target file already exists: " ++ op.newPath), w1)
  else
    FileSystemUtils.renameSync op.originalPath op.newPath w1

/-- `handleOperationError`: count the failure, record it, log it, continue. -/
def handleOperationError (op : FileOperation) (errorMessage : String)
    (result : OrganizationResult) (w : World) : OrganizationResult × World :=
  ({ result with
      failed := result.failed + 1
      errors := result.errors ++ [{ file := op.originalPath, error := errorMessage }] },
    logLine ("✗ Failed to process " ++ op.originalPath) w)

/-- `executeOperation`: the per-operation try/catch. -/
def executeOperation (op : FileOperation) (state : OrganizationResult × World) :
    OrganizationResult × World :=
  match performOperation op state.2 with
  | (none, w1) =>
    ({ state.1 with successful := state.1.successful + 1 },
      logLine ("✓ " ++ op.reason) w1)
  | (some msg, w1) => handleOperationError op msg state.1 w1

/-- `executeReal`: apply `executeOperation` to each operation in list
order. -/
def executeReal (operations : List FileOperation)
    (state : OrganizationResult × World) : OrganizationResult × World :=
  operations.foldl (fun s op => executeOperation op s) state

/-- `executeDryRun`: log one line per operation, touch no filesystem state,
and report every operation as a success. -/
def executeDryRun (operations : List FileOperation)
    (state : OrganizationResult × World) : OrganizationResult × World :=
  let w1 := logLine "DRY RUN: No files will be modified" state.2
  let w2 := operations.foldl
    (fun w op => logLine ("[DRY RUN] " ++ typeString op.type ++ ": " ++
      op.originalPath ++ " -> " ++ op.newPath) w) w1
  ({ state.1 with successful := operations.length }, w2)

/-- `execute`. -/
def execute (dryRun : Bool) (operations : List FileOperation) (w : World) :
    OrganizationResult × World :=
  let result := createEmptyResult operations
  if dryRun then executeDryRun operations (result, w)
  else executeReal operations (result, w)

end OperationExecutor

/-! ## `ManifestBuilder` (src/src/organizer/manifest-builder.ts)

The builder reads the wall clock once (`new Date().toISOString()`); the
embedding takes that timestamp as a parameter. -/

/-- `OperationStatus` enum. -/
inductive OperationStatus where
  | success
  | failed
deriving DecidableEq, Repr

/-- `ManifestEntry`. -/
structure ManifestEntry where
  timestamp : String
  operation : FileOperation
  status : OperationStatus
  error : Option String
deriving DecidableEq, Repr

/-- `Manifest`. -/
structure Manifest where
  generatedAt : String
  totalOperations : Nat
  successful : Nat
  failed : Nat
  entries : List ManifestEntry
deriving DecidableEq, Repr

namespace ManifestBuilder

/-- `buildEntries`: one entry per operation; an operation is `failed`
exactly when some recorded error names its source path. -/
def buildEntries (operations : List FileOperation) (errors : List OrgError)
    (timestamp : String) : List ManifestEntry :=
  operations.map fun operation =>
    let err := errors.find? (fun e => e.file = operation.originalPath)
    { timestamp := timestamp
      operation := operation
      status := match err with
        | some _ => OperationStatus.failed
        | none => OperationStatus.success
      error := err.map OrgError.error }

/-- `ManifestBuilder.build`. -/
def build (timestamp : String) (result : OrganizationResult)
    (errors : List OrgError) : Manifest :=
  { generatedAt := timestamp
    totalOperations := result.operations.length
    successful := result.successful
    failed := result.failed
    entries := buildEntries result.operations errors timestamp }

end ManifestBuilder

/-! ## Substring helper (for "message contains `already exists`") -/

/-- Decide whether `needle` occurs at the start of `hay`. -/
def startsList (needle hay : List Char) : Bool :=
  match needle, hay with
  | [], _ => true
  | _ :: _, [] => false
  | n :: ns, h :: hs => n = h && startsList ns hs

/-- Decide whether `needle` occurs contiguously anywhere inside `hay`. -/
def listSub (needle : List Char) : List Char → Bool
  | [] => startsList needle []
  | c :: rest => startsList needle (c :: rest) || listSub needle rest

/-- Decide whether string `needle` occurs as a substring of `hay`. -/
def containsSub (needle hay : String) : Bool := listSub needle.data hay.data

theorem startsList_self_append (l t : List Char) : startsList l (l ++ t) = true := by
  induction l with
  | nil => rfl
  | cons c cs ih => simp [startsList, ih]

theorem listSub_of_starts {n l : List Char} (h : startsList n l = true) :
    listSub n l = true := by
  cases l with
  | nil =>
    cases n with
    | nil => rfl
    | cons c cs => simp [startsList] at h
  | cons c cs => simp [listSub, h]

theorem listSub_cons {n l : List Char} (c : Char) (h : listSub n l = true) :
    listSub n (c :: l) = true := by
  simp [listSub, h]

theorem listSub_append_right {n t : List Char} (s : List Char)
    (h : listSub n t = true) : listSub n (s ++ t) = true := by
  induction s with
  | nil => simpa using h
  | cons c cs ih => simpa using listSub_cons c ih

/-- The fixed error text of the overwrite guard contains `already exists`,
whatever the destination path is. -/
theorem alreadyExists_sub (p : String) :
    containsSub "already exists" ("Target file already exists: " ++ p) = true := by
  have hconst : "Target file already exists: ".data
      = "Target file ".data ++ ("already exists".data ++ ": ".data) := by decide
  have hsplit : ("Target file already exists: " ++ p).data
      = "Target file ".data ++ ("already exists".data ++ (": ".data ++ p.data)) := by
    have h0 : ("Target file already exists: " ++ p).data
        = "Target file already exists: ".data ++ p.data := rfl
    rw [h0, hconst]
    simp [List.append_assoc]
  unfold containsSub
  rw [hsplit]
  apply listSub_append_right
  apply listSub_of_starts
  rw [← List.append_assoc]
  exact startsList_self_append _ _

/-! ## Executor lemmas -/

namespace OperationExecutor

theorem executeOperation_counts (op : FileOperation)
    (s : OrganizationResult × World) :
    ((executeOperation op s).1.successful = s.1.successful + 1 ∧
      (executeOperation op s).1.failed = s.1.failed) ∨
    ((executeOperation op s).1.successful = s.1.successful ∧
      (executeOperation op s).1.failed = s.1.failed + 1) := by
  rcases h : performOperation op s.2 with ⟨msg, w1⟩
  cases msg with
  | none => left; simp [executeOperation, h]
  | some m => right; simp [executeOperation, h, handleOperationError]

theorem executeOperation_operations (op : FileOperation)
    (s : OrganizationResult × World) :
    (executeOperation op s).1.operations = s.1.operations := by
  rcases h : performOperation op s.2 with ⟨msg, w1⟩
  cases msg with
  | none => simp [executeOperation, h]
  | some m => simp [executeOperation, h, handleOperationError]

theorem executeReal_counts (ops : List FileOperation) :
    ∀ s : OrganizationResult × World,
      (executeReal ops s).1.successful + (executeReal ops s).1.failed
        = s.1.successful + s.1.failed + ops.length ∧
      (executeReal ops s).1.operations = s.1.operations := by
  induction ops with
  | nil => intro s; simp [executeReal]
  | cons op rest ih =>
    intro s
    have hstep : executeReal (op :: rest) s = executeReal rest (executeOperation op s) := by
      simp [executeReal, List.foldl_cons]
    rw [hstep]
    rcases ih (executeOperation op s) with ⟨hc, hops⟩
    refine ⟨?_, hops.trans (executeOperation_operations op s)⟩
    rw [hc]
    rcases executeOperation_counts op s with ⟨h1, h2⟩ | ⟨h1, h2⟩ <;>
      (rw [h1, h2]; simp; omega)

theorem dryRunFold_world (ops : List FileOperation) :
    ∀ w : World,
      (ops.foldl (fun w op => logLine ("[DRY RUN] " ++ typeString op.type ++ ": " ++
        op.originalPath ++ " -> " ++ op.newPath) w) w).entries = w.entries ∧
      (ops.foldl (fun w op => logLine ("[DRY RUN] " ++ typeString op.type ++ ": " ++
        op.originalPath ++ " -> " ++ op.newPath) w) w).fsCalls = w.fsCalls := by
  induction ops with
  | nil => intro w; simp
  | cons op rest ih =>
    intro w
    rcases ih (logLine ("[DRY RUN] " ++ typeString op.type ++ ": " ++
      op.originalPath ++ " -> " ++ op.newPath) w) with ⟨h1, h2⟩
    constructor
    · rw [List.foldl_cons, h1]; rfl
    · rw [List.foldl_cons, h2]; rfl

end OperationExecutor

/-! ## Claim C1: real-mode executor isolation and count invariant -/

/-- Concrete world for the executor scenarios: one file `/a` exists. -/
def w0 : World := { entries := ["/a"], fsCalls := [], log := [] }

/-- Operation whose source is missing, so executing it throws. -/
def opA : FileOperation :=
  { type := FileOperationType.move, originalPath := "/missing"
    newPath := "/t/m", reason := "Moving to t" }

/-- Operation whose source exists, so executing it succeeds. -/
def opB : FileOperation :=
  { type := FileOperationType.move, originalPath := "/a"
    newPath := "/t/a", reason := "Moving to t" }

/-- C1.  In real (non-dry-run) mode, `execute` attempts every operation in
the input list exactly once, in list order: the run over a concatenation is
the run over the first part continued by the run over the second, each
single operation updates exactly one of the two counters by exactly one (a
failure never aborts the batch), and on any input
`successCount + failureCount = operations.length`; in particular, for
operations `[A, B]` where `A` throws (missing source) and `B` succeeds, the
result is one success and one failure. -/
theorem executor_real_isolation :
    (∀ (ops : List FileOperation) (w : World),
      (OperationExecutor.execute false ops w).1.successful +
        (OperationExecutor.execute false ops w).1.failed = ops.length ∧
      (OperationExecutor.execute false ops w).1.operations = ops) ∧
    (∀ (l₁ l₂ : List FileOperation) (s : OrganizationResult × World),
      OperationExecutor.executeReal (l₁ ++ l₂) s
        = OperationExecutor.executeReal l₂ (OperationExecutor.executeReal l₁ s)) ∧
    (∀ (op : FileOperation) (s : OrganizationResult × World),
      ((OperationExecutor.executeOperation op s).1.successful = s.1.successful + 1 ∧
        (OperationExecutor.executeOperation op s).1.failed = s.1.failed) ∨
      ((OperationExecutor.executeOperation op s).1.successful = s.1.successful ∧
        (OperationExecutor.executeOperation op s).1.failed = s.1.failed + 1)) ∧
    ((OperationExecutor.execute false [opA, opB] w0).1.successful = 1 ∧
      (OperationExecutor.execute false [opA, opB] w0).1.failed = 1) := by
  refine ⟨?_, ?_, OperationExecutor.executeOperation_counts, by decide⟩
  · intro ops w
    have h := OperationExecutor.executeReal_counts ops
      (OperationExecutor.createEmptyResult ops, w)
    simpa [OperationExecutor.execute, OperationExecutor.createEmptyResult] using h
  · intro l₁ l₂ s
    simp [OperationExecutor.executeReal, List.foldl_append]

/-! ## Claim C6: dry-run purity -/

/-- C6.  Executing any operations list with `dryRun = true` performs zero
filesystem mutations (the entry set and the mutation trace are unchanged —
only log output is produced) and reports every operation as a success:
`successCount = operations.length`, `failureCount = 0`, no failures. -/
theorem executor_dry_run_pure (ops : List FileOperation) (w : World) :
    (OperationExecutor.execute true ops w).1.successful = ops.length ∧
    (OperationExecutor.execute true ops w).1.failed = 0 ∧
    (OperationExecutor.execute true ops w).1.errors = [] ∧
    (OperationExecutor.execute true ops w).1.operations = ops ∧
    (OperationExecutor.execute true ops w).2.entries = w.entries ∧
    (OperationExecutor.execute true ops w).2.fsCalls = w.fsCalls := by
  rcases OperationExecutor.dryRunFold_world ops
    (logLine "DRY RUN: No files will be modified" w) with ⟨h1, h2⟩
  refine ⟨rfl, rfl, rfl, rfl, ?_, ?_⟩
  · simpa [OperationExecutor.execute, OperationExecutor.executeDryRun, logLine]
      using h1
  · simpa [OperationExecutor.execute, OperationExecutor.executeDryRun, logLine]
      using h2

/-! ## Claim C7: destination-exists guard (no overwrite) -/

theorem mem_entries_mkdirSync {p : String} {w : World} (d : String)
    (h : p ∈ w.entries) : p ∈ (FileSystemUtils.mkdirSync d w).entries := by
  unfold FileSystemUtils.mkdirSync
  split
  · exact h
  · exact List.mem_cons_of_mem _ h

/-- Concrete world for scenario D: `/a` and `/b` exist, and an unrelated
file already occupies `/occupied`. -/
def wD : World := { entries := ["/a", "/b", "/occupied"], fsCalls := [], log := [] }

/-- Second operation of scenario D: its destination is already occupied. -/
def opD : FileOperation :=
  { type := FileOperationType.move, originalPath := "/b"
    newPath := "/occupied", reason := "Moving to occupied" }

/-- C7.  In real mode, an operation whose destination differs from its
source and is already occupied fails without performing the rename: the
world after the failure is exactly the world after the (idempotent)
`mkdirSync` of the destination's parent — no rename call is recorded and no
entry is replaced — and the recorded error message contains
`already exists`.  Scenario D: of two operations where the second's
destination is occupied by an unrelated existing file, the first succeeds
and the second fails with such a message. -/
theorem executor_no_overwrite :
    (∀ (op : FileOperation) (w : World),
      op.newPath ∈ w.entries →
      op.newPath ≠ op.originalPath →
      OperationExecutor.performOperation op w
        = (some ("Target file already exists: " ++ op.newPath),
            FileSystemUtils.mkdirSync (NodePath.dirname op.newPath) w) ∧
      containsSub "already exists"
        ("Target file already exists: " ++ op.newPath) = true) ∧
    ((OperationExecutor.execute false [opB, opD] wD).1.successful = 1 ∧
      (OperationExecutor.execute false [opB, opD] wD).1.failed = 1 ∧
      (OperationExecutor.execute false [opB, opD] wD).1.errors
        = [{ file := "/b", error := "Target file already exists: /occupied" }] ∧
      containsSub "already exists" "Target file already exists: /occupied" = true) := by
  constructor
  · intro op w hmem hne
    refine ⟨?_, alreadyExists_sub op.newPath⟩
    unfold OperationExecutor.performOperation
    have hex : FileSystemUtils.existsSync op.newPath
        (FileSystemUtils.mkdirSync (NodePath.dirname op.newPath) w) = true := by
      unfold FileSystemUtils.existsSync
      simp [mem_entries_mkdirSync _ hmem]
    simp [hex, hne]
  · exact ⟨by decide, by decide, by decide, by decide⟩

/-- C7 witness: the guard theorem applied to the concrete occupied
destination of scenario D. -/
theorem executor_no_overwrite_witness :
    OperationExecutor.performOperation opD wD
      = (some ("Target file already exists: " ++ opD.newPath),
          FileSystemUtils.mkdirSync (NodePath.dirname opD.newPath) wD) ∧
    containsSub "already exists"
      ("Target file already exists: " ++ opD.newPath) = true :=
  executor_no_overwrite.1 opD wD (by decide) (by decide)

/-! ## Claim C9: manifest count consistency (corrected) -/

/-- An `OrganizationResult` that no executor run would produce: counters
inconsistent with the operations list. -/
def badResult : OrganizationResult :=
  { operations := [], successful := 1, failed := 0, errors := [] }

/-- C9 counterexample.  `build` copies `successful`/`failed` from the given
result but takes `totalOperations` from the operations list, so for an
arbitrary `ExecutionResult` the claimed equality
`totalOperations = successful + failed` fails. -/
theorem manifest_counts_cex :
    ¬ ((ManifestBuilder.build "2025-01-01T00:00:00.000Z" badResult []).totalOperations
      = (ManifestBuilder.build "2025-01-01T00:00:00.000Z" badResult []).successful
        + (ManifestBuilder.build "2025-01-01T00:00:00.000Z" badResult []).failed) := by
  decide

/-- C9 amended.  For every ExecutionResult, `totalOperations` equals
`entries.length`; when the result additionally satisfies the executor's
count invariant `successful + failed = operations.length` (which every
result produced by `execute` does), `totalOperations = successful + failed`
as well. -/
theorem manifest_counts (ts : String) (result : OrganizationResult)
    (errors : List OrgError) :
    (ManifestBuilder.build ts result errors).totalOperations
      = (ManifestBuilder.build ts result errors).entries.length ∧
    (result.successful + result.failed = result.operations.length →
      (ManifestBuilder.build ts result errors).totalOperations
        = (ManifestBuilder.build ts result errors).successful
          + (ManifestBuilder.build ts result errors).failed) := by
  constructor
  · simp [ManifestBuilder.build, ManifestBuilder.buildEntries]
  · intro h
    simp [ManifestBuilder.build]
    omega

/-- An `OrganizationResult` satisfying the executor count invariant. -/
def okResult : OrganizationResult :=
  { operations := [opB], successful := 1, failed := 0, errors := [] }

/-- C9 witness: the amended theorem at a concrete consistent result. -/
theorem manifest_counts_witness :
    (ManifestBuilder.build "2025-01-01T00:00:00.000Z" okResult []).totalOperations
      = (ManifestBuilder.build "2025-01-01T00:00:00.000Z" okResult []).successful
        + (ManifestBuilder.build "2025-01-01T00:00:00.000Z" okResult []).failed :=
  (manifest_counts "2025-01-01T00:00:00.000Z" okResult []).2 (by decide)

/-! ## Planner lemmas and claims C4, C5 -/

namespace OperationPlanner

theorem createOperation_originalPath (f : ScannedFile) (t n : String) :
    (createOperation f t n).originalPath = f.originalPath := by
  simp only [createOperation]
  split_ifs <;> rfl

theorem createOperation_newPath (f : ScannedFile) (t n : String) :
    (createOperation f t n).newPath = n := by
  simp only [createOperation]
  split_ifs <;> rfl

end OperationPlanner

/-- Naming convention used by the concrete planner scenarios (the default
configuration's kebab-case with `lowercase: true`). -/
def kebabLower : NamingConvention := ⟨NamingType.kebab, true⟩

/-- Minimal configuration for the planner scenarios. -/
def exConfig : OrderlyConfig :=
  { categories := [], namingConvention := kebabLower, excludePatterns := []
    includeHidden := false, dryRun := false, generateManifest := true
    targetDirectory := none }

/-- A file whose category target folder equals its current directory but
whose filename is not canonical. -/
def exFile : ScannedFile :=
  { originalPath := "/base/docs/My File.txt", filename := "My File.txt"
    extension := ".txt", size := 10, category := some "documents"
    targetFolder := some "docs", scanNeedsRename := false, suggestedName := none }

/-- C4 counterexample.  For `exFile` the destination directory equals the
source directory (only the filename changes), yet the planner classifies
the operation as `move-rename`, not `rename`: classification keys on the
presence of `targetFolder`, not on whether the directory actually
changed. -/
theorem planner_kind_cex :
    OperationPlanner.planFileOperation exConfig "/base" exFile
      = some { type := FileOperationType.moveRename
               originalPath := "/base/docs/My File.txt"
               newPath := "/base/docs/my-file.txt"
               reason := "Moving to docs and renaming to my-file.txt" } ∧
    NodePath.dirname "/base/docs/my-file.txt"
      = NodePath.dirname "/base/docs/My File.txt" ∧
    ("my-file.txt" : String) ≠ "My File.txt" := by
  refine ⟨by decide, by decide, by decide⟩

/-- C4 amended.  For every operation the planner emits, the kind is
determined by `targetFolder` presence and filename change: `move-rename`
exactly when the file has a `targetFolder` (even one equal to its current
directory) and the filename changed; `move` exactly when it has a
`targetFolder` and the filename did not change; `rename` exactly when it
has no `targetFolder`. -/
theorem planner_kind (config : OrderlyConfig) (base : String)
    (file : ScannedFile) (op : FileOperation)
    (h : OperationPlanner.planFileOperation config base file = some op) :
    ((op.type = FileOperationType.moveRename) ↔
      (file.targetFolder.isSome = true ∧
        file.filename ≠ (OperationPlanner.calculateTargets config base file).2)) ∧
    ((op.type = FileOperationType.move) ↔
      (file.targetFolder.isSome = true ∧
        file.filename = (OperationPlanner.calculateTargets config base file).2)) ∧
    ((op.type = FileOperationType.rename) ↔ file.targetFolder = none) := by
  unfold OperationPlanner.planFileOperation at h
  by_cases hg : NodePath.normalize
      (NodePath.join (OperationPlanner.calculateTargets config base file).1
        (OperationPlanner.calculateTargets config base file).2)
      = NodePath.normalize file.originalPath
  · simp [hg] at h
  · simp only [hg, if_false, Option.some.injEq] at h
    subst h
    cases hTF : file.targetFolder with
    | none =>
      by_cases h2 : file.filename
          = (OperationPlanner.calculateTargets config base file).2 <;>
        simp [OperationPlanner.createOperation, hTF, h2]
    | some tf =>
      by_cases h2 : file.filename
          = (OperationPlanner.calculateTargets config base file).2 <;>
        simp [OperationPlanner.createOperation, hTF, h2]

/-- C4 witness: the amended classification at the concrete `exFile`. -/
theorem planner_kind_witness :
    ((FileOperationType.moveRename = FileOperationType.moveRename) ↔
      (exFile.targetFolder.isSome = true ∧
        exFile.filename ≠ (OperationPlanner.calculateTargets exConfig "/base" exFile).2)) ∧
    ((FileOperationType.moveRename = FileOperationType.move) ↔
      (exFile.targetFolder.isSome = true ∧
        exFile.filename = (OperationPlanner.calculateTargets exConfig "/base" exFile).2)) ∧
    ((FileOperationType.moveRename = FileOperationType.rename) ↔
      exFile.targetFolder = none) :=
  planner_kind exConfig "/base" exFile
    { type := FileOperationType.moveRename
      originalPath := "/base/docs/My File.txt"
      newPath := "/base/docs/my-file.txt"
      reason := "Moving to docs and renaming to my-file.txt" }
    (by decide)

/-! ## Claim C5: planner no-op invariant -/

/-- C5.  A discovered file whose computed, normalized destination equals its
normalized source gets no operation, and dually no emitted operation has a
normalized destination equal to its normalized source. -/
theorem planner_noop (config : OrderlyConfig) (base : String)
    (files : List ScannedFile) :
    (∀ f ∈ files,
      NodePath.normalize
          (NodePath.join (OperationPlanner.calculateTargets config base f).1
            (OperationPlanner.calculateTargets config base f).2)
        = NodePath.normalize f.originalPath →
      OperationPlanner.planFileOperation config base f = none) ∧
    (∀ op ∈ OperationPlanner.plan config base files,
      NodePath.normalize op.newPath ≠ NodePath.normalize op.originalPath) := by
  constructor
  · intro f _ hf
    unfold OperationPlanner.planFileOperation
    simp [hf]
  · intro op hop
    rcases List.mem_filterMap.mp hop with ⟨f, _, hsome⟩
    unfold OperationPlanner.planFileOperation at hsome
    by_cases hg : NodePath.normalize
        (NodePath.join (OperationPlanner.calculateTargets config base f).1
          (OperationPlanner.calculateTargets config base f).2)
        = NodePath.normalize f.originalPath
    · simp [hg] at hsome
    · simp only [hg, if_false, Option.some.injEq] at hsome
      subst hsome
      rw [OperationPlanner.createOperation_newPath,
        OperationPlanner.createOperation_originalPath]
      exact hg

/-- A file that is already correctly placed and canonically named. -/
def exFile2 : ScannedFile :=
  { originalPath := "/base/docs/my-file.txt", filename := "my-file.txt"
    extension := ".txt", size := 10, category := some "documents"
    targetFolder := some "docs", scanNeedsRename := false, suggestedName := none }

/-- C5 witness: the no-op invariant at the concrete already-canonical
`exFile2`. -/
theorem planner_noop_witness :
    OperationPlanner.planFileOperation exConfig "/base" exFile2 = none :=
  (planner_noop exConfig "/base" [exFile2]).1 exFile2 (List.mem_singleton.mpr rfl)
    (by decide)

/-! ## Claim C8: categorizer extension comparison (corrected) -/

/-- Model of JS `String.prototype.toLowerCase` (ASCII range). -/
def strLowerS (s : String) : String := ⟨lowStr s.data⟩

theorem strLowerS_idem (s : String) : strLowerS (strLowerS s) = strLowerS s := by
  unfold strLowerS
  exact congrArg String.mk (lowStr_lowStr s.data)

/-- A category rule declaring the lowercase extension `.jpg`. -/
def ruleJpg : CategoryRule :=
  { name := "images", extensions := [".jpg"], patterns := none
    targetFolder := some "images" }

/-- A category rule declaring the uppercase extension `.JPG`. -/
def ruleJPG : CategoryRule :=
  { name := "images", extensions := [".JPG"], patterns := none
    targetFolder := some "images" }

/-- C8 counterexample.  `Array.includes` compares strings exactly, so a
case-mismatched extension is not an extension match in either direction,
contradicting the claimed case-insensitive comparison (the matcher is
irrelevant here: these rules declare no patterns). -/
theorem categorizer_case_cex :
    FileCategorizer.categorize (fun _ _ => true) ".JPG" "photo.JPG" [ruleJpg] = none ∧
    FileCategorizer.categorize (fun _ _ => true) ".jpg" "photo.jpg" [ruleJPG] = none := by
  exact ⟨by decide, by decide⟩

/-- C8 amended.  `categorize` compares the given extension with each rule's
extension set by exact (case-sensitive) string equality: a matched rule
literally contains the given extension string.  Case-insensitivity on the
file side is recovered by the pipeline: the scanner lowercases the file's
extension before categorizing, and for rules whose declared extensions are
lowercase (the data-model invariant), membership of the lowered extension
coincides with case-insensitive membership. -/
theorem categorizer_extension_exact :
    (∀ (isMatch : String → List String → Bool) (ext fn : String)
        (cats : List CategoryRule) (r : CategoryRule),
      FileCategorizer.categorize isMatch ext fn cats = some r →
      ext ∈ r.extensions) ∧
    (∀ (e : String) (cats : List CategoryRule),
      (∀ r ∈ cats, ∀ x ∈ r.extensions, strLowerS x = x) →
      ∀ r ∈ cats,
        (strLowerS e ∈ r.extensions ↔
          ∃ x ∈ r.extensions, strLowerS x = strLowerS e)) := by
  constructor
  · intro isMatch ext fn cats r h
    have hp := List.find?_some h
    unfold FileCategorizer.matchesCategory at hp
    by_cases hmem : ext ∈ r.extensions
    · exact hmem
    · simp [hmem] at hp
  · intro e cats hlow r hr
    constructor
    · intro hmem
      exact ⟨strLowerS e, hmem, strLowerS_idem e⟩
    · rintro ⟨x, hx, hxe⟩
      have : x = strLowerS e := (hlow r hr x hx).symm.trans hxe
      exact this ▸ hx

/-- C8 witness: the exact-membership half at a concrete matching rule, and
the recovered insensitivity at a lowercase rule set. -/
theorem categorizer_extension_exact_witness :
    (".jpg" : String) ∈ ruleJpg.extensions ∧
    (strLowerS ".JPG" ∈ ruleJpg.extensions ↔
      ∃ x ∈ ruleJpg.extensions, strLowerS x = strLowerS ".JPG") :=
  ⟨categorizer_extension_exact.1 (fun _ _ => true) ".jpg" "photo.jpg"
      [ruleJpg] ruleJpg (by decide),
    categorizer_extension_exact.2 ".JPG" [ruleJpg] (by decide) ruleJpg
      (List.mem_singleton.mpr rfl)⟩

/-! ## Structure of `extnameCore` and `stemCore` -/

theorem mem_takeWhile {p : Char → Bool} {a : Char} :
    ∀ {l : List Char}, a ∈ l.takeWhile p → p a = true := by
  intro l
  induction l with
  | nil => intro h; simp [List.takeWhile] at h
  | cons c rest ih =>
    intro h
    rw [List.takeWhile_cons] at h
    by_cases hc : p c = true
    · rw [if_pos hc] at h
      rcases List.mem_cons.mp h with h | h
      · exact h ▸ hc
      · exact ih h
    · rw [if_neg hc] at h
      simp at h

theorem dropWhile_head_false {p : Char → Bool} {x : Char} {xs : List Char} :
    ∀ {l : List Char}, l.dropWhile p = x :: xs → p x = false := by
  intro l
  induction l with
  | nil => intro h; simp [List.dropWhile] at h
  | cons c rest ih =>
    intro h
    rw [List.dropWhile_cons] at h
    by_cases hc : p c = true
    · rw [if_pos hc] at h
      exact ih h
    · rw [if_neg hc] at h
      cases h
      exact Bool.not_eq_true _ ▸ (by simpa using hc)

theorem takeWhile_eq_self {p : Char → Bool} :
    ∀ {l : List Char}, (∀ a ∈ l, p a = true) → l.takeWhile p = l := by
  intro l
  induction l with
  | nil => intro _; rfl
  | cons c rest ih =>
    intro h
    rw [List.takeWhile_cons, if_pos (h c (List.mem_cons_self c rest))]
    rw [ih fun a ha => h a (List.mem_cons_of_mem c ha)]

theorem takeWhile_append_term {p : Char → Bool} {c : Char} (ys : List Char)
    {xs : List Char} (hxs : ∀ x ∈ xs, p x = true) (hc : p c = false) :
    (xs ++ c :: ys).takeWhile p = xs := by
  induction xs with
  | nil => simp [List.takeWhile_cons, hc]
  | cons a rest ih =>
    rw [List.cons_append, List.takeWhile_cons,
      if_pos (hxs a (List.mem_cons_self a rest)),
      ih fun x hx => hxs x (List.mem_cons_of_mem a hx)]

theorem notDot_iff {c : Char} : notDot c = true ↔ c ≠ '.' := by
  simp [notDot]

theorem extnameCore_no_dot {l : List Char} (h : '.' ∉ l) : extnameCore l = [] := by
  have ht : l.reverse.takeWhile notDot = l.reverse := by
    apply takeWhile_eq_self
    intro a ha
    rw [notDot_iff]
    intro hEq
    exact h (hEq ▸ List.mem_reverse.mp ha)
  simp only [extnameCore]
  rw [ht]
  simp

theorem stemCore_no_dot {l : List Char} (h : '.' ∉ l) : stemCore l = l := by
  unfold stemCore
  rw [extnameCore_no_dot h]
  simp [List.take_length]

theorem extnameCore_append {K R : List Char} (hK : K ≠ []) (hKd : '.' ∉ K)
    (hRd : '.' ∉ R) : extnameCore (K ++ '.' :: R) = '.' :: R := by
  have ht : (K ++ '.' :: R).reverse.takeWhile notDot = R.reverse := by
    have hrev : (K ++ '.' :: R).reverse = R.reverse ++ '.' :: K.reverse := by
      simp
    rw [hrev]
    apply takeWhile_append_term
    · intro x hx
      rw [notDot_iff]
      intro hEq
      exact hRd (hEq ▸ List.mem_reverse.mp hx)
    · simp [notDot]
  have hlen : (K ++ '.' :: R).length = K.length + 1 + R.length := by
    simp only [List.length_append, List.length_cons]
    omega
  have hKpos : 0 < K.length := List.length_pos.mpr hK
  have h1 : ¬ ((R.reverse.reverse).length = (K ++ '.' :: R).length) := by
    simp only [List.reverse_reverse, hlen]
    omega
  have h2 : ¬ ((K ++ '.' :: R).length - (R.reverse.reverse).length - 1 = 0 ∨
      K ++ '.' :: R = ['.', '.']) := by
    push_neg
    constructor
    · simp only [List.reverse_reverse, hlen]
      omega
    · intro hEq
      rcases K with _ | ⟨k, K'⟩
      · exact hK rfl
      · have hk : k = '.' := by
          have h0 := congrArg List.head? hEq
          simpa using h0
        exact hKd (hk ▸ List.mem_cons_self k K')
  simp only [extnameCore]
  rw [ht, if_neg h1, if_neg h2, List.reverse_reverse]

theorem extnameCore_shape (l : List Char) :
    extnameCore l = [] ∨ ∃ R, extnameCore l = '.' :: R ∧ '.' ∉ R := by
  simp only [extnameCore]
  split
  · left; rfl
  · split
    · left; rfl
    · right
      refine ⟨(l.reverse.takeWhile notDot).reverse, rfl, ?_⟩
      intro hmem
      have h := mem_takeWhile (List.mem_reverse.mp hmem)
      rw [notDot_iff] at h
      exact h rfl

theorem stem_ext_concat (l : List Char) : stemCore l ++ extnameCore l = l := by
  have hsplit : l.reverse.takeWhile notDot ++ l.reverse.dropWhile notDot = l.reverse :=
    List.takeWhile_append_dropWhile notDot l.reverse
  rcases hdrop : l.reverse.dropWhile notDot with _ | ⟨d, T⟩
  · have hnd : '.' ∉ l := by
      intro hmem
      rw [hdrop, List.append_nil] at hsplit
      have hx : ('.' : Char) ∈ l.reverse.takeWhile notDot := by
        rw [hsplit]
        exact List.mem_reverse.mpr hmem
      have h := mem_takeWhile hx
      rw [notDot_iff] at h
      exact h rfl
    rw [extnameCore_no_dot hnd, stemCore_no_dot hnd, List.append_nil]
  · have hd : d = '.' := by
      have h := dropWhile_head_false hdrop
      simpa [notDot] using h
    subst hd
    obtain ⟨A, hA⟩ : ∃ A, l.reverse.takeWhile notDot = A := ⟨_, rfl⟩
    rw [hdrop, hA] at hsplit
    have hl : l = T.reverse ++ '.' :: A.reverse := by
      have h0 := congrArg List.reverse hsplit
      simpa using h0.symm
    have hAdot : '.' ∉ A.reverse := by
      intro hmem
      have hx : ('.' : Char) ∈ l.reverse.takeWhile notDot := by
        rw [hA]
        exact List.mem_reverse.mp hmem
      have h := mem_takeWhile hx
      rw [notDot_iff] at h
      exact h rfl
    have hlen : l.length = T.length + 1 + A.length := by
      rw [hl]
      simp only [List.length_append, List.length_cons, List.length_reverse]
      omega
    by_cases hc : T = [] ∨ l = ['.', '.']
    · have h2 : l.length - A.reverse.length - 1 = 0 ∨ l = ['.', '.'] := by
        rcases hc with hT | hdd
        · left
          subst hT
          simp only [List.length_reverse, hlen, List.length_nil]
          omega
        · right
          exact hdd
      have hext : extnameCore l = [] := by
        simp only [extnameCore]
        rw [hA]
        by_cases h1 : A.reverse.length = l.length
        · rw [if_pos h1]
        · rw [if_neg h1, if_pos h2]
      rw [hext, List.append_nil]
      unfold stemCore
      rw [hext]
      simp [List.take_length]
    · push_neg at hc
      have hTpos : 0 < T.length := List.length_pos.mpr hc.1
      have h1 : ¬ (A.reverse.length = l.length) := by
        simp only [List.length_reverse, hlen]
        omega
      have h2 : ¬ (l.length - A.reverse.length - 1 = 0 ∨ l = ['.', '.']) := by
        push_neg
        refine ⟨?_, hc.2⟩
        simp only [List.length_reverse, hlen]
        omega
      have hext : extnameCore l = '.' :: A.reverse := by
        simp only [extnameCore]
        rw [hA, if_neg h1, if_neg h2]
      have hstem : stemCore l = T.reverse := by
        unfold stemCore
        rw [hext]
        have hn : l.length - ('.' :: A.reverse).length = T.reverse.length := by
          simp only [List.length_cons, List.length_reverse, hlen]
          omega
        rw [hn, hl]
        exact List.take_left _ _
      rw [hstem, hext, ← hl]

theorem stemCore_eq_of_concat {l S E : List Char} (hS : S ++ E = l)
    (hE : extnameCore l = E) : stemCore l = S := by
  have h := stem_ext_concat l
  rw [hE] at h
  have hlen : (stemCore l).length = S.length := by
    have h1 := congrArg List.length h
    have h2 := congrArg List.length hS
    simp only [List.length_append] at h1 h2
    omega
  have hconc : stemCore l ++ E = S ++ E := h.trans hS.symm
  exact (List.append_inj hconc hlen).1

theorem stemCore_append {K R : List Char} (hK : K ≠ []) (hKd : '.' ∉ K)
    (hRd : '.' ∉ R) : stemCore (K ++ '.' :: R) = K :=
  stemCore_eq_of_concat rfl (extnameCore_append hK hKd hRd)

/-! ## Character classes of the kebab/snake outputs -/

/-- Characters that can appear in a `toKebabCase` output: lowercase ASCII
letters, digits, and the dash. -/
def kebabFinal (c : Char) : Bool := lowerA c || digitA c || c.toNat = 45

/-- Characters that can appear in a `toSnakeCase` output: lowercase ASCII
letters, digits, and the underscore. -/
def snakeFinal (c : Char) : Bool := lowerA c || digitA c || c.toNat = 95

theorem kebabFinal_not_upper {c : Char} (h : kebabFinal c = true) :
    upperA c = false := by
  simp only [kebabFinal, snakeFinal, kebabSep, snakeSep, kebabKeep, snakeKeep, spaceA, camelSep, lowerA, upperA, digitA, Bool.or_eq_true, Bool.and_eq_true, Bool.or_eq_false_iff, Bool.and_eq_false_iff, decide_eq_true_eq, decide_eq_false_iff_not] at h ⊢
  omega

theorem kebabFinal_not_sep {c : Char} (h : kebabFinal c = true) :
    kebabSep c = false := by
  simp only [kebabFinal, snakeFinal, kebabSep, snakeSep, kebabKeep, snakeKeep, spaceA, camelSep, lowerA, upperA, digitA, Bool.or_eq_true, Bool.and_eq_true, Bool.or_eq_false_iff, Bool.and_eq_false_iff, decide_eq_true_eq, decide_eq_false_iff_not] at h ⊢
  omega

theorem kebabFinal_keep {c : Char} (h : kebabFinal c = true) :
    kebabKeep c = true := by
  simp only [kebabFinal, snakeFinal, kebabSep, snakeSep, kebabKeep, snakeKeep, spaceA, camelSep, lowerA, upperA, digitA, Bool.or_eq_true, Bool.and_eq_true, Bool.or_eq_false_iff, Bool.and_eq_false_iff, decide_eq_true_eq, decide_eq_false_iff_not] at h ⊢
  omega

theorem kebabFinal_not_dot {c : Char} (h : kebabFinal c = true) : c ≠ '.' := by
  intro hEq
  subst hEq
  exact absurd h (by decide)

theorem snakeFinal_not_upper {c : Char} (h : snakeFinal c = true) :
    upperA c = false := by
  simp only [kebabFinal, snakeFinal, kebabSep, snakeSep, kebabKeep, snakeKeep, spaceA, camelSep, lowerA, upperA, digitA, Bool.or_eq_true, Bool.and_eq_true, Bool.or_eq_false_iff, Bool.and_eq_false_iff, decide_eq_true_eq, decide_eq_false_iff_not] at h ⊢
  omega

theorem snakeFinal_not_sep {c : Char} (h : snakeFinal c = true) :
    snakeSep c = false := by
  simp only [kebabFinal, snakeFinal, kebabSep, snakeSep, kebabKeep, snakeKeep, spaceA, camelSep, lowerA, upperA, digitA, Bool.or_eq_true, Bool.and_eq_true, Bool.or_eq_false_iff, Bool.and_eq_false_iff, decide_eq_true_eq, decide_eq_false_iff_not] at h ⊢
  omega

theorem snakeFinal_keep {c : Char} (h : snakeFinal c = true) :
    snakeKeep c = true := by
  simp only [kebabFinal, snakeFinal, kebabSep, snakeSep, kebabKeep, snakeKeep, spaceA, camelSep, lowerA, upperA, digitA, Bool.or_eq_true, Bool.and_eq_true, Bool.or_eq_false_iff, Bool.and_eq_false_iff, decide_eq_true_eq, decide_eq_false_iff_not] at h ⊢
  omega

theorem snakeFinal_not_dot {c : Char} (h : snakeFinal c = true) : c ≠ '.' := by
  intro hEq
  subst hEq
  exact absurd h (by decide)

/-! ## Identity of the naming passes on canonical inputs -/

theorem boundaryGo_id (sep : Char) :
    ∀ (l : List Char) (c : Char), (∀ d ∈ c :: l, upperA d = false) →
      boundaryGo sep c l = c :: l := by
  intro l
  induction l with
  | nil => intro c _; rfl
  | cons d rest ih =>
    intro c h
    have hd : upperA d = false := h d (List.mem_cons_of_mem c (List.mem_cons_self d rest))
    simp only [boundaryGo]
    rw [if_neg (by simp [hd])]
    rw [ih d fun x hx => h x (List.mem_cons_of_mem c hx)]

theorem boundaryIns_id (sep : Char) {l : List Char}
    (h : ∀ d ∈ l, upperA d = false) : boundaryIns sep l = l := by
  cases l with
  | nil => rfl
  | cons c rest => exact boundaryGo_id sep rest c h

theorem collapseAux_id (p : Char → Bool) (sep : Char) :
    ∀ {l : List Char}, (∀ d ∈ l, p d = false) → collapseAux p sep false l = l := by
  intro l
  induction l with
  | nil => intro _; rfl
  | cons c rest ih =>
    intro h
    simp only [collapseAux]
    rw [if_neg (by simp [h c (List.mem_cons_self c rest)])]
    rw [ih fun x hx => h x (List.mem_cons_of_mem c hx)]

theorem lowStr_id {l : List Char} (h : ∀ d ∈ l, upperA d = false) :
    lowStr l = l := by
  induction l with
  | nil => rfl
  | cons c rest ih =>
    simp only [lowStr, List.map_cons]
    rw [lowChar_of_not_upper (by simp [h c (List.mem_cons_self c rest)])]
    have := ih fun x hx => h x (List.mem_cons_of_mem c hx)
    simp only [lowStr] at this
    rw [this]

theorem filter_id {q : Char → Bool} {l : List Char}
    (h : ∀ d ∈ l, q d = true) : l.filter q = l :=
  List.filter_eq_self.mpr h

/-! ## The kebab/snake transformations are fixed on their own outputs -/

theorem kebabChars_final (l : List Char) :
    ∀ c ∈ NamingUtils.kebabChars l, kebabFinal c = true := by
  intro c hc
  unfold NamingUtils.kebabChars lowStr at hc
  rcases List.mem_map.mp hc with ⟨d, hd, rfl⟩
  have hkeep : kebabKeep d = true := List.of_mem_filter hd
  by_cases hu : upperA d = true
  · have := lowerA_lowChar_of_upper hu
    simp [kebabFinal, this]
  · rw [lowChar_of_not_upper hu]
    simp only [Bool.not_eq_true] at hu
    simp only [kebabFinal, snakeFinal, kebabSep, snakeSep, kebabKeep, snakeKeep, spaceA, camelSep, lowerA, upperA, digitA, Bool.or_eq_true, Bool.and_eq_true, Bool.or_eq_false_iff, Bool.and_eq_false_iff, decide_eq_true_eq, decide_eq_false_iff_not] at hkeep hu ⊢
    omega

theorem snakeChars_final (l : List Char) :
    ∀ c ∈ NamingUtils.snakeChars l, snakeFinal c = true := by
  intro c hc
  unfold NamingUtils.snakeChars lowStr at hc
  rcases List.mem_map.mp hc with ⟨d, hd, rfl⟩
  have hkeep : snakeKeep d = true := List.of_mem_filter hd
  by_cases hu : upperA d = true
  · have := lowerA_lowChar_of_upper hu
    simp [snakeFinal, this]
  · rw [lowChar_of_not_upper hu]
    simp only [Bool.not_eq_true] at hu
    simp only [kebabFinal, snakeFinal, kebabSep, snakeSep, kebabKeep, snakeKeep, spaceA, camelSep, lowerA, upperA, digitA, Bool.or_eq_true, Bool.and_eq_true, Bool.or_eq_false_iff, Bool.and_eq_false_iff, decide_eq_true_eq, decide_eq_false_iff_not] at hkeep hu ⊢
    omega

theorem kebabChars_id {l : List Char} (h : ∀ c ∈ l, kebabFinal c = true) :
    NamingUtils.kebabChars l = l := by
  unfold NamingUtils.kebabChars collapseRuns
  rw [boundaryIns_id '-' fun d hd => kebabFinal_not_upper (h d hd)]
  rw [collapseAux_id kebabSep '-' fun d hd => kebabFinal_not_sep (h d hd)]
  rw [filter_id fun d hd => kebabFinal_keep (h d hd)]
  exact lowStr_id fun d hd => kebabFinal_not_upper (h d hd)

theorem snakeChars_id {l : List Char} (h : ∀ c ∈ l, snakeFinal c = true) :
    NamingUtils.snakeChars l = l := by
  unfold NamingUtils.snakeChars collapseRuns
  rw [boundaryIns_id '_' fun d hd => snakeFinal_not_upper (h d hd)]
  rw [collapseAux_id snakeSep '_' fun d hd => snakeFinal_not_sep (h d hd)]
  rw [filter_id fun d hd => snakeFinal_keep (h d hd)]
  exact lowStr_id fun d hd => snakeFinal_not_upper (h d hd)

theorem kebabChars_idem (l : List Char) :
    NamingUtils.kebabChars (NamingUtils.kebabChars l) = NamingUtils.kebabChars l :=
  kebabChars_id (kebabChars_final l)

theorem snakeChars_idem (l : List Char) :
    NamingUtils.snakeChars (NamingUtils.snakeChars l) = NamingUtils.snakeChars l :=
  snakeChars_id (snakeChars_final l)

theorem transformStem_kebab (b : Bool) (l : List Char) :
    NamingUtils.transformStem ⟨NamingType.kebab, b⟩ l = NamingUtils.kebabChars l := by
  cases b with
  | false => simp [NamingUtils.transformStem]
  | true =>
    have h1 : NamingUtils.transformStem ⟨NamingType.kebab, true⟩ l
        = lowStr (NamingUtils.kebabChars l) := by
      simp [NamingUtils.transformStem]
    rw [h1]
    exact lowStr_id fun d hd => kebabFinal_not_upper (kebabChars_final l d hd)

theorem transformStem_snake (b : Bool) (l : List Char) :
    NamingUtils.transformStem ⟨NamingType.snake, b⟩ l = NamingUtils.snakeChars l := by
  cases b with
  | false => simp [NamingUtils.transformStem]
  | true =>
    have h1 : NamingUtils.transformStem ⟨NamingType.snake, true⟩ l
        = lowStr (NamingUtils.snakeChars l) := by
      simp [NamingUtils.transformStem]
    rw [h1]
    exact lowStr_id fun d hd => snakeFinal_not_upper (snakeChars_final l d hd)

/-! ## Re-application of `applyNamingConvention` -/

theorem lowChar_dot : lowChar '.' = '.' := by decide

theorem lowChar_eq_dot_iff {c : Char} : lowChar c = '.' ↔ c = '.' := by
  constructor
  · intro h
    by_cases hu : upperA c = true
    · exfalso
      have h1 := toNat_lowChar_of_upper hu
      rw [h] at h1
      have h46 : ('.' : Char).toNat = 46 := by decide
      rw [h46] at h1
      rcases upperA_iff.mp hu with ⟨h2, h3⟩
      omega
    · rwa [lowChar_of_not_upper hu] at h
  · intro h
    rw [h]
    exact lowChar_dot

theorem not_dot_lowStr {R : List Char} (h : '.' ∉ R) : '.' ∉ lowStr R := by
  intro hmem
  rcases List.mem_map.mp hmem with ⟨d, hd, hEq⟩
  exact h (lowChar_eq_dot_iff.mp hEq ▸ hd)

theorem lowStr_cons_dot (R : List Char) : lowStr ('.' :: R) = '.' :: lowStr R := by
  simp [lowStr, lowChar_dot]

/-- Re-applying `applyNamingConvention` returns its input whenever the stem
transformation is nonempty and dot-free on this input and fixed on its own
output — the shared core of the idempotence facts for kebab-case and
snake_case. -/
theorem apply_reapply (conv : NamingConvention) (f : String)
    (hne : NamingUtils.transformStem conv (stemCore f.data) ≠ [])
    (hdot : '.' ∉ NamingUtils.transformStem conv (stemCore f.data))
    (hfix : NamingUtils.transformStem conv
        (NamingUtils.transformStem conv (stemCore f.data))
      = NamingUtils.transformStem conv (stemCore f.data)) :
    NamingUtils.applyNamingConvention
        (NamingUtils.applyNamingConvention f conv) conv
      = NamingUtils.applyNamingConvention f conv := by
  rcases extnameCore_shape f.data with hE | ⟨R, hE, hRdot⟩
  · show String.mk (NamingUtils.transformStem conv
        (stemCore (NamingUtils.transformStem conv (stemCore f.data)
          ++ lowStr (extnameCore f.data)))
        ++ lowStr (extnameCore (NamingUtils.transformStem conv (stemCore f.data)
          ++ lowStr (extnameCore f.data)))) = _
    rw [hE]
    show String.mk (NamingUtils.transformStem conv
        (stemCore (NamingUtils.transformStem conv (stemCore f.data) ++ []))
        ++ lowStr (extnameCore (NamingUtils.transformStem conv (stemCore f.data)
          ++ []))) = _
    rw [List.append_nil, stemCore_no_dot hdot, extnameCore_no_dot hdot, hfix]
    show String.mk (NamingUtils.transformStem conv (stemCore f.data) ++ lowStr [])
      = String.mk (NamingUtils.transformStem conv (stemCore f.data)
        ++ lowStr (extnameCore f.data))
    rw [hE]
  · show String.mk (NamingUtils.transformStem conv
        (stemCore (NamingUtils.transformStem conv (stemCore f.data)
          ++ lowStr (extnameCore f.data)))
        ++ lowStr (extnameCore (NamingUtils.transformStem conv (stemCore f.data)
          ++ lowStr (extnameCore f.data)))) = _
    rw [hE, lowStr_cons_dot,
      stemCore_append hne hdot (not_dot_lowStr hRdot),
      extnameCore_append hne hdot (not_dot_lowStr hRdot),
      hfix, lowStr_cons_dot, lowStr_lowStr]
    show String.mk (NamingUtils.transformStem conv (stemCore f.data)
        ++ '.' :: lowStr R)
      = String.mk (NamingUtils.transformStem conv (stemCore f.data)
        ++ lowStr (extnameCore f.data))
    rw [hE, lowStr_cons_dot]

/-! ## Claim C2: idempotence of `applyConvention` (corrected) -/

/-- C2 counterexample.  Idempotence fails for each of the four convention
types: camelCase on `_foo` gives `Foo`, then `foo`; PascalCase on `my_file`
gives `MyFile`, then `Myfile`; kebab-case and snake_case on `#.txt` give
`.txt` (empty transformed stem), then `txt`. -/
theorem naming_idem_cex :
    NamingUtils.applyNamingConvention
        (NamingUtils.applyNamingConvention "_foo" ⟨NamingType.camel, false⟩)
        ⟨NamingType.camel, false⟩
      ≠ NamingUtils.applyNamingConvention "_foo" ⟨NamingType.camel, false⟩ ∧
    NamingUtils.applyNamingConvention
        (NamingUtils.applyNamingConvention "my_file" ⟨NamingType.pascal, false⟩)
        ⟨NamingType.pascal, false⟩
      ≠ NamingUtils.applyNamingConvention "my_file" ⟨NamingType.pascal, false⟩ ∧
    NamingUtils.applyNamingConvention
        (NamingUtils.applyNamingConvention "#.txt" ⟨NamingType.kebab, false⟩)
        ⟨NamingType.kebab, false⟩
      ≠ NamingUtils.applyNamingConvention "#.txt" ⟨NamingType.kebab, false⟩ ∧
    NamingUtils.applyNamingConvention
        (NamingUtils.applyNamingConvention "#.txt" ⟨NamingType.snake, false⟩)
        ⟨NamingType.snake, false⟩
      ≠ NamingUtils.applyNamingConvention "#.txt" ⟨NamingType.snake, false⟩ := by
  exact ⟨by decide, by decide, by decide, by decide⟩

/-- C2 amended.  `applyConvention` is idempotent for the kebab-case and
snake_case conventions (either value of the lowercase flag) on every
slash-free filename whose transformed stem is nonempty; it is not
idempotent in general for camelCase or PascalCase, nor when the transformed
stem is empty (see the counterexample). -/
theorem naming_idem_kebab_snake (f : String) (b : Bool) (_hs : '/' ∉ f.data) :
    (NamingUtils.transformStem ⟨NamingType.kebab, b⟩ (stemCore f.data) ≠ [] →
      NamingUtils.applyNamingConvention
          (NamingUtils.applyNamingConvention f ⟨NamingType.kebab, b⟩)
          ⟨NamingType.kebab, b⟩
        = NamingUtils.applyNamingConvention f ⟨NamingType.kebab, b⟩) ∧
    (NamingUtils.transformStem ⟨NamingType.snake, b⟩ (stemCore f.data) ≠ [] →
      NamingUtils.applyNamingConvention
          (NamingUtils.applyNamingConvention f ⟨NamingType.snake, b⟩)
          ⟨NamingType.snake, b⟩
        = NamingUtils.applyNamingConvention f ⟨NamingType.snake, b⟩) := by
  constructor
  · intro hne
    apply apply_reapply _ _ hne
    · rw [transformStem_kebab]
      intro hmem
      exact kebabFinal_not_dot (kebabChars_final _ _ hmem) rfl
    · rw [transformStem_kebab, transformStem_kebab]
      exact kebabChars_idem _
  · intro hne
    apply apply_reapply _ _ hne
    · rw [transformStem_snake]
      intro hmem
      exact snakeFinal_not_dot (snakeChars_final _ _ hmem) rfl
    · rw [transformStem_snake, transformStem_snake]
      exact snakeChars_idem _

/-- C2 witness: idempotence at the concrete spec scenario
`Test File.TXT` under kebab-case with the lowercase flag. -/
theorem naming_idem_kebab_snake_witness :
    NamingUtils.applyNamingConvention
        (NamingUtils.applyNamingConvention "Test File.TXT" ⟨NamingType.kebab, true⟩)
        ⟨NamingType.kebab, true⟩
      = NamingUtils.applyNamingConvention "Test File.TXT" ⟨NamingType.kebab, true⟩ :=
  (naming_idem_kebab_snake "Test File.TXT" true (by decide)).1 (by decide)

/-! ## Claim C3: camelCase first character (corrected) -/

theorem camelSep_lowChar (c : Char) : camelSep (lowChar c) = camelSep c := by
  by_cases hu : upperA c = true
  · have h1 := toNat_lowChar_of_upper hu
    rcases upperA_iff.mp hu with ⟨h2, h3⟩
    have hl : camelSep (lowChar c) = false := by
      simp only [camelSep, spaceA, h1, Bool.or_eq_false_iff,
        decide_eq_false_iff_not]
      omega
    have hr : camelSep c = false := by
      simp only [camelSep, spaceA, Bool.or_eq_false_iff,
        decide_eq_false_iff_not]
      omega
    rw [hl, hr]
  · rw [lowChar_of_not_upper hu]

/-- C3 counterexample.  The camelCase transformation never forces the first
character to lowercase: for the stem `_foo` (a separator run followed by a
letter) the output is `Foo`, which begins with an uppercase letter. -/
theorem camel_first_cex :
    NamingUtils.applyNamingConvention "_foo" ⟨NamingType.camel, false⟩ = "Foo" ∧
    (NamingUtils.applyNamingConvention "_foo"
      ⟨NamingType.camel, false⟩).data.head? = some 'F' ∧
    upperA 'F' = true := by
  exact ⟨by decide, by decide, by decide⟩

/-- C3 amended.  The camelCase transformation lowercases the stem and then
deletes each separator run, uppercasing the character that follows the run;
no separate forcing of the first character to lowercase takes place, so the
output stem can begin with an uppercase letter when the original stem
begins with a separator run (see the counterexample, `_foo` giving `Foo`).
For every filename whose stem begins with a non-separator character, the
first character of the output is that character lowercased, hence not an
uppercase letter. -/
theorem camel_first_char (f : String) (b : Bool) (c : Char) (rest : List Char)
    (_hs : '/' ∉ f.data) (hstem : stemCore f.data = c :: rest)
    (hc : camelSep c = false) :
    (NamingUtils.applyNamingConvention f ⟨NamingType.camel, b⟩).data.head?
        = some (lowChar c) ∧
    upperA (lowChar c) = false := by
  refine ⟨?_, not_upperA_lowChar c⟩
  have ht : NamingUtils.transformStem ⟨NamingType.camel, b⟩ (stemCore f.data)
      = NamingUtils.camelChars (c :: rest) := by
    rw [hstem]
    cases b <;> simp [NamingUtils.transformStem]
  have hcc : NamingUtils.camelChars (c :: rest)
      = lowChar c :: camelAux false (lowStr rest) := by
    unfold NamingUtils.camelChars
    show camelAux false (lowChar c :: lowStr rest) = _
    simp only [camelAux]
    rw [camelSep_lowChar, hc]
    simp
  show (NamingUtils.transformStem ⟨NamingType.camel, b⟩ (stemCore f.data)
      ++ lowStr (extnameCore f.data)).head? = some (lowChar c)
  rw [ht, hcc]
  rfl

/-- C3 witness: the amended statement at the concrete filename `Foo.txt`,
whose stem begins with the non-separator `F`. -/
theorem camel_first_char_witness :
    (NamingUtils.applyNamingConvention "Foo.txt"
        ⟨NamingType.camel, false⟩).data.head? = some (lowChar 'F') ∧
    upperA (lowChar 'F') = false :=
  camel_first_char "Foo.txt" false 'F' ['o', 'o'] (by decide) (by decide)
    (by decide)

/-! ## Claim C10: the default convention branch (corrected) -/

theorem lowChar_eq_self_iff {c : Char} : lowChar c = c ↔ upperA c = false := by
  constructor
  · intro h
    by_cases hu : upperA c = true
    · exfalso
      have h1 := toNat_lowChar_of_upper hu
      rw [h] at h1
      omega
    · simpa using hu
  · intro h
    exact lowChar_of_not_upper (by simp [h])

theorem lowStr_eq_self_iff {l : List Char} :
    lowStr l = l ↔ l.any upperA = false := by
  induction l with
  | nil => simp [lowStr]
  | cons c rest ih =>
    simp only [lowStr, List.map_cons, List.cons.injEq, List.any_cons,
      Bool.or_eq_false_iff]
    rw [lowChar_eq_self_iff]
    exact and_congr Iff.rfl ih

/-- C10 counterexample.  Under an unsupported convention type with
`lowercase: true`, the stem is not returned unchanged (`Foo.txt` becomes
`foo.txt`) and `needsRename` is true although the extension contains no
uppercase letter, contradicting both parts of the claim. -/
theorem naming_default_cex :
    NamingUtils.applyNamingConvention "Foo.txt"
        ⟨NamingType.other "custom", true⟩ = "foo.txt" ∧
    ("foo.txt" : String) ≠ "Foo.txt" ∧
    NamingUtils.needsRename "Foo.txt" ⟨NamingType.other "custom", true⟩ = true ∧
    (extnameCore "Foo.txt".data).any upperA = false := by
  exact ⟨by decide, by decide, by decide, by decide⟩

/-- C10 amended.  Under a convention whose type is none of the four
supported values, `applyNamingConvention` never throws (it is a total
function) and returns the stem — lowercased when `convention.lowercase` is
true, unchanged otherwise — concatenated with the lowercased extension;
`needsRename` holds exactly when the extension contains an uppercase letter
or (`lowercase` being true) the stem contains an uppercase letter. -/
theorem naming_default (f s : String) (b : Bool) (_hs : '/' ∉ f.data) :
    NamingUtils.applyNamingConvention f ⟨NamingType.other s, b⟩
      = ⟨(if b then lowStr (stemCore f.data) else stemCore f.data)
          ++ lowStr (extnameCore f.data)⟩ ∧
    (NamingUtils.needsRename f ⟨NamingType.other s, b⟩ = true ↔
      ((extnameCore f.data).any upperA = true ∨
        (b = true ∧ (stemCore f.data).any upperA = true))) := by
  have happly : NamingUtils.applyNamingConvention f ⟨NamingType.other s, b⟩
      = ⟨(if b then lowStr (stemCore f.data) else stemCore f.data)
          ++ lowStr (extnameCore f.data)⟩ := by
    unfold NamingUtils.applyNamingConvention NamingUtils.transformStem
    cases b <;> simp
  refine ⟨happly, ?_⟩
  have hlen : ((if b then lowStr (stemCore f.data) else stemCore f.data)).length
      = (stemCore f.data).length := by
    cases b <;> simp [lowStr]
  have hne : NamingUtils.needsRename f ⟨NamingType.other s, b⟩ = true ↔
      ¬ (stemCore f.data = (if b then lowStr (stemCore f.data) else stemCore f.data)
          ∧ extnameCore f.data = lowStr (extnameCore f.data)) := by
    unfold NamingUtils.needsRename
    rw [happly]
    simp only [ne_eq, decide_eq_true_eq]
    constructor
    · intro h hand
      apply h
      have hdata : f.data = (if b then lowStr (stemCore f.data) else stemCore f.data)
          ++ lowStr (extnameCore f.data) := by
        rw [← hand.1, ← hand.2]
        exact (stem_ext_concat f.data).symm
      cases f
      exact congrArg String.mk hdata
    · intro h hEq
      apply h
      have hdata : f.data = (if b then lowStr (stemCore f.data) else stemCore f.data)
          ++ lowStr (extnameCore f.data) := congrArg String.data hEq
      have hconc := stem_ext_concat f.data
      have hinj := List.append_inj (hconc.trans hdata) (by rw [hlen])
      exact ⟨hinj.1, hinj.2⟩
  rw [hne]
  cases b with
  | false =>
    have hif : (if (false = true) then lowStr (stemCore f.data)
        else stemCore f.data) = stemCore f.data := rfl
    rw [hif]
    simp only [Bool.false_eq_true, false_and, or_false]
    constructor
    · intro h
      by_cases hext : (extnameCore f.data).any upperA = true
      · exact hext
      · exact absurd ⟨by trivial,
          (lowStr_eq_self_iff.mpr (by simpa using hext)).symm⟩ h
    · intro h hand
      have h2 := lowStr_eq_self_iff.mp hand.2.symm
      rw [h] at h2
      simp at h2
  | true =>
    have hif : (if (true = true) then lowStr (stemCore f.data)
        else stemCore f.data) = lowStr (stemCore f.data) := rfl
    rw [hif]
    simp only [eq_self_iff_true, true_and]
    constructor
    · intro h
      by_cases hext : (extnameCore f.data).any upperA = true
      · exact Or.inl hext
      · by_cases hstem : (stemCore f.data).any upperA = true
        · exact Or.inr hstem
        · exact absurd ⟨(lowStr_eq_self_iff.mpr (by simpa using hstem)).symm,
            (lowStr_eq_self_iff.mpr (by simpa using hext)).symm⟩ h
    · rintro (h | h) hand
      · have h2 := lowStr_eq_self_iff.mp hand.2.symm
        rw [h] at h2
        simp at h2
      · have h2 := lowStr_eq_self_iff.mp hand.1.symm
        rw [h] at h2
        simp at h2

/-- C10 witness: the amended statement at the concrete filename `Foo.txt`
with an unsupported type and the lowercase flag set. -/
theorem naming_default_witness :
    NamingUtils.applyNamingConvention "Foo.txt" ⟨NamingType.other "custom", true⟩
      = ⟨(if true then lowStr (stemCore "Foo.txt".data)
          else stemCore "Foo.txt".data)
          ++ lowStr (extnameCore "Foo.txt".data)⟩ ∧
    (NamingUtils.needsRename "Foo.txt" ⟨NamingType.other "custom", true⟩ = true ↔
      ((extnameCore "Foo.txt".data).any upperA = true ∨
        (true = true ∧ (stemCore "Foo.txt".data).any upperA = true))) :=
  naming_default "Foo.txt" "custom" true (by decide)

end Orderly
